import Mathlib

/-!
Shallow embedding of `src/github/operations/files.ts`: the GitHub file
operations of an MCP server.  Remote HTTP traffic (the `githubRequest`
transport client and the global `fetch`) is modelled by an explicit
environment of responses, and every function threads a trace of the remote
calls it issues, so that theorems can speak both about results and about
which requests were sent, in which order, with which bodies.

JavaScript value quirks that matter are modelled explicitly: optional
parameters are `Option`s, string truthiness (`if (!currentSha)`,
`if (branch)`, `data.content`) is an emptiness test, and the object spread
`...(currentSha ? { sha: currentSha } : {})` conditionally includes a field.

Node's `Buffer` base64 encode/decode are platform library calls (out of
scope for the repository, like the transport client) and are modelled as
fields of the environment.
-/

/-- Errors a run can end in.  `external` is whatever the transport client or
`fetch` throws (opaque payload); `jsError` is a `throw new Error(msg)` in
`files.ts` itself; `parseError` models a zod `.parse` rejection;
`invalidArgument` models a schema refinement rejection. -/
inductive Err where
  | external (payload : String)
  | jsError (msg : String)
  | parseError
  | invalidArgument (msg : String)
deriving DecidableEq, Repr

/-- One `(path, content)` edit, `FileOperationSchema`. -/
structure FileOperation where
  path : String
  content : String
deriving DecidableEq, Repr

/-- One entry of the tree-create request body built by `createTree`. -/
structure TreeEntry where
  path : String
  mode : String
  type : String
  content : String
deriving DecidableEq, Repr

/-- Body of the `POST /git/trees` request. -/
structure TreeBody where
  tree : List TreeEntry
  base_tree : Option String
deriving DecidableEq, Repr

/-- Body of the `POST /git/commits` request. -/
structure CommitBody where
  message : String
  tree : String
  parents : List String
deriving DecidableEq, Repr

/-- Body of the `PATCH /git/refs/...` request. -/
structure RefBody where
  sha : String
  force : Bool
deriving DecidableEq, Repr

/-- Body of the `PUT /contents/...` request; `sha := none` models the field
being absent from the object (the conditional spread). -/
structure PutBody where
  message : String
  content : String
  branch : String
  sha : Option String
deriving DecidableEq, Repr

/-- Request bodies that `files.ts` sends through the transport client. -/
inductive ReqBody where
  | tree (b : TreeBody)
  | commit (b : CommitBody)
  | refUpdate (b : RefBody)
  | putFile (b : PutBody)
deriving DecidableEq, Repr

/-- One request handed to the transport client (`githubRequest(url, opts)`).
A `GET` has no body. -/
structure RemoteCall where
  url : String
  method : String
  body : Option ReqBody
deriving DecidableEq, Repr

/-- One observable outbound call: a transport-client request or a document
fetch (the `fetch(published_artifact_url)` in the content resolver). -/
inductive Call where
  | github (c : RemoteCall)
  | fetch (url : String)
deriving DecidableEq, Repr

/-- The `object` field of a git reference, `GitHubReferenceSchema`
(fields not used by `files.ts` omitted). -/
structure RefObject where
  sha : String
deriving DecidableEq, Repr

/-- A branch reference as parsed by `GitHubReferenceSchema`. -/
structure GitRef where
  ref : String
  object : RefObject
deriving DecidableEq, Repr

/-- A tree object as parsed by `GitHubTreeSchema` (only the `sha` is read). -/
structure TreeResp where
  sha : String
deriving DecidableEq, Repr

/-- A commit object as parsed by `GitHubCommitSchema` (only the `sha` is
read). -/
structure CommitResp where
  sha : String
deriving DecidableEq, Repr

/-- A single-file record of `GitHubFileContentSchema` (the fields
`files.ts` reads: `sha` and `content`). -/
structure FileRecord where
  sha : String
  content : String
deriving DecidableEq, Repr

/-- Result of parsing `GitHubContentSchema`: a single-file record or a
directory listing (an array). -/
inductive ContentData where
  | file (f : FileRecord)
  | dir (l : List FileRecord)
deriving DecidableEq, Repr

/-- Result of parsing `GitHubCreateUpdateFileResponseSchema`. -/
structure PutResp where
  contentRecord : Option FileRecord
  commit : CommitResp
deriving DecidableEq, Repr

/-- A parsed JSON response from the remote API, as one of the shapes the
zod schemas in `files.ts` accept. -/
inductive Response where
  | content (d : ContentData)
  | ref (r : GitRef)
  | tree (t : TreeResp)
  | commit (c : CommitResp)
  | putResult (p : PutResp)
deriving DecidableEq, Repr

/-- The external world: the transport client (`githubRequest`), the global
`fetch` (returning the response body text), and Node `Buffer` base64
encode / decode-to-UTF-8. -/
structure Env where
  request : RemoteCall → Except Err Response
  fetchText : String → Except Err String
  toBase64 : String → String
  fromBase64 : String → String

/-- Computation that issues remote calls: threads the trace of calls issued
so far and ends in a value or a thrown error.  The trace survives a throw
(the failing request was still issued). -/
def M (α : Type) : Type := List Call → Except Err α × List Call

/-- Monadic return for `M`. -/
def M.pure {α : Type} (a : α) : M α := fun tr => (.ok a, tr)

/-- Monadic bind for `M`: short-circuits on a thrown error, keeping the
trace accumulated so far. -/
def M.bind {α β : Type} (x : M α) (f : α → M β) : M β := fun tr =>
  match x tr with
  | (.ok a, tr2) => f a tr2
  | (.error e, tr2) => (.error e, tr2)

instance : Monad M where
  pure := M.pure
  bind := M.bind

/-- `throw` for `M`. -/
def M.throw {α : Type} (e : Err) : M α := fun tr => (.error e, tr)

/-- `try/catch` for `M`: the trace accumulated before the throw is kept
(those requests really were issued). -/
def M.tryCatch {α : Type} (x : M α) (h : Err → M α) : M α := fun tr =>
  match x tr with
  | (.ok a, tr2) => (.ok a, tr2)
  | (.error e, tr2) => h e tr2

/-- Lift a pure `Except` (a synchronous `.parse` or thrown error) into `M`. -/
def liftE {α : Type} (x : Except Err α) : M α := fun tr =>
  match x with
  | .ok a => (.ok a, tr)
  | .error e => (.error e, tr)

/-- The transport client: record the call, then return the environment's
response or propagate its throw unchanged. -/
def githubRequest (env : Env) (c : RemoteCall) : M Response := fun tr =>
  match env.request c with
  | .ok r => (.ok r, tr ++ [Call.github c])
  | .error e => (.error e, tr ++ [Call.github c])

/-- The global `fetch` followed by `.text()`: record the fetch, then return
the body text or propagate the network error. -/
def fetchDoc (env : Env) (u : String) : M String := fun tr =>
  match env.fetchText u with
  | .ok s => (.ok s, tr ++ [Call.fetch u])
  | .error e => (.error e, tr ++ [Call.fetch u])

/-- Model of `GitHubReferenceSchema.parse`. -/
def parseRef (r : Response) : Except Err GitRef :=
  match r with
  | .ref g => .ok g
  | _ => .error .parseError

/-- Model of `GitHubTreeSchema.parse`. -/
def parseTree (r : Response) : Except Err TreeResp :=
  match r with
  | .tree t => .ok t
  | _ => .error .parseError

/-- Model of `GitHubCommitSchema.parse`. -/
def parseCommit (r : Response) : Except Err CommitResp :=
  match r with
  | .commit c => .ok c
  | _ => .error .parseError

/-- Model of `GitHubContentSchema.parse`. -/
def parseContent (r : Response) : Except Err ContentData :=
  match r with
  | .content d => .ok d
  | _ => .error .parseError

/-- Model of `GitHubCreateUpdateFileResponseSchema.parse`. -/
def parsePut (r : Response) : Except Err PutResp :=
  match r with
  | .putResult p => .ok p
  | _ => .error .parseError

/-- JavaScript truthiness of an optional string: `undefined` and `""` are
falsy. -/
def strFalsy (s : Option String) : Bool :=
  match s with
  | none => true
  | some v => v = ""

/-- Characters the entity pattern `&[a-zA-Z0-9#]+;` allows between `&`
and `;`. -/
def isEntChar (c : Char) : Bool := c.isAlphanum || c = '#'

/-- The fixed entity table of `decodeHTMLEntities` (all values are single
characters). -/
def entLookup (s : String) : Option Char :=
  if s = "&quot;" then some '"'
  else if s = "&amp;" then some '&'
  else if s = "&apos;" then some '\x27'
  else if s = "&lt;" then some '<'
  else if s = "&gt;" then some '>'
  else if s = "&#x27;" then some '\x27'
  else none

/-- Helper for termination: `dropWhile` never lengthens a list. -/
theorem length_dropWhile_le_self (p : α → Bool) (l : List α) :
    (l.dropWhile p).length ≤ l.length := by
  induction l with
  | nil => simp [List.dropWhile]
  | cons a l ih =>
    by_cases h : p a
    · simp only [List.dropWhile_cons_of_pos h]
      exact Nat.le_trans ih (Nat.le_succ _)
    · simp [List.dropWhile_cons_of_neg h]

/-- Core of `decodeHTMLEntities`: the left-to-right global replace of
`/&[a-zA-Z0-9#]+;/g`.  At each position, a match exists exactly when the
character is `&`, the maximal run of entity characters after it is
non-empty, and the character right after that run is `;` (the run cannot
contain `;`, so no backtracking arises); the match is replaced via the
table, or kept verbatim when the table misses, and scanning resumes after
the match.  The `fuel` argument only makes the recursion structural: every
step consumes at least one character and one unit of fuel, so with
`fuel = l.length` the fuel-exhausted equation is never reached. -/
def decodeFuel : Nat → List Char → List Char
  | _, [] => []
  | 0, l => l
  | fuel + 1, c :: rest =>
    if c = '&' then
      match rest.dropWhile isEntChar with
      | ';' :: rest2 =>
        if rest.takeWhile isEntChar = [] then c :: decodeFuel fuel rest
        else
          let name : String := String.mk ('&' :: (rest.takeWhile isEntChar ++ [';']))
          (match entLookup name with
           | some ch => [ch]
           | none => name.data) ++ decodeFuel fuel rest2
      | _ => c :: decodeFuel fuel rest
    else c :: decodeFuel fuel rest

/-- `decodeHTMLEntities` from `files.ts`. -/
def decodeHTMLEntities (s : String) : String :=
  String.mk (decodeFuel s.data.length s.data)

/-- Substring test: does `pat` occur (contiguously) inside `l`? -/
def hasSub (pat : List Char) : List Char → Bool
  | [] => pat.isEmpty
  | c :: rest => pat.isPrefixOf (c :: rest) || hasSub pat rest

/-- Split `l` at the first occurrence of `pat`: `some (before, after)` with
`l = before ++ pat ++ after` and no earlier occurrence, `none` when `pat`
does not occur. -/
def splitOnSubstr (pat : List Char) : List Char → Option (List Char × List Char)
  | [] => if pat = [] then some ([], []) else none
  | c :: rest =>
    if pat.isPrefixOf (c :: rest) then some ([], (c :: rest).drop pat.length)
    else
      match splitOnSubstr pat rest with
      | some (a, b) => some (c :: a, b)
      | none => none

/-- The regex `/<code[^>]*?>(.*?)<\/code>/s` applied by `String.match`
(first match only): scanning start positions left to right, a match starts
where `<code` occurs, consumes up to the first later `>` (the lazy
`[^>]*?` cannot cross a `>`), and captures up to the first later
`</code>`; the value is the captured group `match[1]`. -/
def codeMatchAux : List Char → Option (List Char)
  | [] => none
  | c :: rest =>
    if "<code".data.isPrefixOf (c :: rest) then
      match splitOnSubstr ['>'] ((c :: rest).drop 5) with
      | some (_, afterGt) =>
        match splitOnSubstr "</code>".data afterGt with
        | some (captured, _) => some captured
        | none => codeMatchAux rest
      | none => codeMatchAux rest
    else codeMatchAux rest

/-- URL of the contents endpoint, as built at the top of `getFileContents`
and in `createOrUpdateFile`. -/
def contentsUrl (owner repo path : String) : String :=
  "https://api.github.com/repos/" ++ owner ++ "/" ++ repo ++ "/contents/" ++ path

/-- `getFileContents`: GET the contents endpoint (appending `?ref=` only
when `branch` is truthy), parse as `GitHubContentSchema`, and when the
result is a single file with truthy `content`, replace `content` by its
base64-decoded UTF-8 text. -/
def getFileContents (env : Env) (owner repo path : String) (branch : Option String) :
    M ContentData := do
  let url :=
    if strFalsy branch then contentsUrl owner repo path
    else contentsUrl owner repo path ++ "?ref=" ++ branch.getD ""
  let response ← githubRequest env { url := url, method := "GET", body := none }
  let data ← liftE (parseContent response)
  match data with
  | .file f =>
    if f.content = "" then pure (.file f)
    else pure (.file { f with content := env.fromBase64 f.content })
  | .dir l => pure (.dir l)

/-- The `published_artifact_url` branch of `createOrUpdateFile`: fetch the
document, match the single-match regex, throw when there is no match, and
entity-decode the captured group. -/
def resolveFromArtifact (env : Env) (u : String) : M String := do
  let html ← fetchDoc env u
  match codeMatchAux html.data with
  | none => M.throw (.jsError "Could not find a singular <code> block in the published artifact")
  | some captured => pure (decodeHTMLEntities (String.mk captured))

/-- `createOrUpdateFile`: resolve the content (literal, artifact scrape, or
throw), base64-encode it, optionally discover the current file SHA by a
pre-read whose failure is swallowed, and issue one PUT whose body includes
`sha` only when the effective SHA is truthy. -/
def createOrUpdateFile (env : Env) (owner repo path : String)
    (content published_artifact_url : Option String)
    (message branch : String) (sha : Option String) : M PutResp := do
  let fileContent ←
    match content with
    | some c => M.pure c
    | none =>
      match published_artifact_url with
      | some u => resolveFromArtifact env u
      | none => M.throw (.jsError "Either `content` or `published_artifact_url` must be provided")
  let encodedContent := env.toBase64 fileContent
  let currentSha ←
    if strFalsy sha then
      M.tryCatch
        (do
          let existingFile ← getFileContents env owner repo path (some branch)
          match existingFile with
          | .file f => M.pure (some f.sha)
          | .dir _ => M.pure sha)
        (fun _ => M.pure sha)
    else M.pure sha
  let body : PutBody :=
    { message := message, content := encodedContent, branch := branch,
      sha := if strFalsy currentSha then none else currentSha }
  let response ← githubRequest env
    { url := contentsUrl owner repo path, method := "PUT", body := some (.putFile body) }
  liftE (parsePut response)

/-- The two `.refine` clauses of `CreateOrUpdateFileSchema`: at least one of
`content` / `published_artifact_url`, and not both. -/
def createOrUpdateFileArgsValid (content published_artifact_url : Option String) : Bool :=
  (content.isSome || published_artifact_url.isSome) &&
    !(content.isSome && published_artifact_url.isSome)

/-- Modelled from the spec: the tool dispatch layer (the server entry point
is not under `src/`) validates the arguments against
`CreateOrUpdateFileSchema` — whose `.refine` clauses are
`createOrUpdateFileArgsValid` — before invoking `createOrUpdateFile`; a
refinement failure surfaces as `InvalidArgument` with no remote call. -/
def createOrUpdateFileTool (env : Env) (owner repo path : String)
    (content published_artifact_url : Option String)
    (message branch : String) (sha : Option String) : M PutResp :=
  if createOrUpdateFileArgsValid content published_artifact_url then
    createOrUpdateFile env owner repo path content published_artifact_url message branch sha
  else
    M.throw (.invalidArgument "Either `content` or `published_artifact_url` must be provided, but not both")

/-- `createTree`: map each edit to a blob entry with fixed mode `100644`,
type `blob` and inline content, POST them with the optional `base_tree`,
and parse the response as a tree. -/
def createTree (env : Env) (owner repo : String) (files : List FileOperation)
    (baseTree : Option String) : M TreeResp := do
  let tree := files.map (fun file =>
    { path := file.path, mode := "100644", type := "blob",
      content := file.content : TreeEntry })
  let response ← githubRequest env
    { url := "https://api.github.com/repos/" ++ owner ++ "/" ++ repo ++ "/git/trees",
      method := "POST",
      body := some (.tree { tree := tree, base_tree := baseTree }) }
  liftE (parseTree response)

/-- `createCommit`: POST `{message, tree, parents}` and parse the response
as a commit. -/
def createCommit (env : Env) (owner repo message tree : String)
    (parents : List String) : M CommitResp := do
  let response ← githubRequest env
    { url := "https://api.github.com/repos/" ++ owner ++ "/" ++ repo ++ "/git/commits",
      method := "POST",
      body := some (.commit { message := message, tree := tree, parents := parents }) }
  liftE (parseCommit response)

/-- `updateReference`: PATCH `{sha, force: true}` to `git/refs/<ref>` and
parse the response as a reference. -/
def updateReference (env : Env) (owner repo ref sha : String) : M GitRef := do
  let response ← githubRequest env
    { url := "https://api.github.com/repos/" ++ owner ++ "/" ++ repo ++ "/git/refs/" ++ ref,
      method := "PATCH",
      body := some (.refUpdate { sha := sha, force := true }) }
  liftE (parseRef response)

/-- `pushFiles`: read the branch head, build a tree on top of the head
commit, build a commit with the head as sole parent, and force-move the
branch reference to it. -/
def pushFiles (env : Env) (owner repo branch : String)
    (files : List FileOperation) (message : String) : M GitRef := do
  let refResponse ← githubRequest env
    { url := "https://api.github.com/repos/" ++ owner ++ "/" ++ repo
        ++ "/git/refs/heads/" ++ branch,
      method := "GET", body := none }
  let ref ← liftE (parseRef refResponse)
  let commitSha := ref.object.sha
  let tree ← createTree env owner repo files (some commitSha)
  let commit ← createCommit env owner repo message tree.sha [commitSha]
  updateReference env owner repo ("heads/" ++ branch) commit.sha

/-- Quick sanity checks that the decoder model matches the JS semantics on
concrete inputs. -/
example : decodeHTMLEntities "a &lt; b &amp;&amp; c &gt; d" = "a < b && c > d" := by decide
example : decodeHTMLEntities "&bad; stays" = "&bad; stays" := by decide
example : decodeHTMLEntities "&&amp;" = "&&" := by decide
example : decodeHTMLEntities "&;" = "&;" := by decide
example : codeMatchAux "no block here".data = none := by decide
example : codeMatchAux "<code>A</code><code>B</code>".data = some "A".data := by decide
example : codeMatchAux "<code class=x>first</code>".data = some "first".data := by decide
example : codeMatchAux "<code>unclosed".data = none := by decide

/-- Do-notation bind for `M` is `M.bind`. -/
theorem bind_eq {α β : Type} (x : M α) (f : α → M β) : x >>= f = M.bind x f := rfl

/-- Do-notation pure for `M` is `M.pure`. -/
theorem pure_eq {α : Type} (a : α) : (pure a : M α) = M.pure a := rfl

/-- C7: for every `createTree(owner, repo, edits, baseTreeSha)` call,
whatever the remote answers, exactly one request is issued; it is a POST
to the trees endpoint whose body is `{tree, base_tree}` where the tree
array has, for each edit in order, exactly the entry
`{path: edit.path, mode: "100644", type: "blob", content: edit.content}`
(inline content, no blob SHA) and `base_tree` carries the optional base
reference. -/
theorem createTree_request_body (env : Env) (owner repo : String)
    (files : List FileOperation) (baseTree : Option String) :
    (createTree env owner repo files baseTree []).2 =
      [Call.github
        { url := "https://api.github.com/repos/" ++ owner ++ "/" ++ repo ++ "/git/trees",
          method := "POST",
          body := some (.tree
            { tree := files.map (fun file =>
                { path := file.path, mode := "100644", type := "blob",
                  content := file.content }),
              base_tree := baseTree }) }] := by
  unfold createTree
  cases henv : env.request
      { url := "https://api.github.com/repos/" ++ owner ++ "/" ++ repo ++ "/git/trees",
        method := "POST",
        body := some (.tree
          { tree := files.map (fun file =>
              { path := file.path, mode := "100644", type := "blob",
                content := file.content }),
            base_tree := baseTree }) } with
  | ok r => cases r <;> simp [bind_eq, M.bind, githubRequest, henv, liftE, parseTree]
  | error e => simp [bind_eq, M.bind, githubRequest, henv, liftE]

/-- The GET request `pushFiles` issues to read the branch head. -/
def readHeadCall (owner repo branch : String) : RemoteCall :=
  { url := "https://api.github.com/repos/" ++ owner ++ "/" ++ repo
      ++ "/git/refs/heads/" ++ branch,
    method := "GET", body := none }

/-- The POST request `createTree` issues: one blob entry per edit, in
order, with inline content. -/
def treeCall (owner repo : String) (files : List FileOperation)
    (baseTree : Option String) : RemoteCall :=
  { url := "https://api.github.com/repos/" ++ owner ++ "/" ++ repo ++ "/git/trees",
    method := "POST",
    body := some (.tree
      { tree := files.map (fun file =>
          { path := file.path, mode := "100644", type := "blob",
            content := file.content }),
        base_tree := baseTree }) }

/-- The POST request `createCommit` issues. -/
def commitCall (owner repo message tree : String) (parents : List String) : RemoteCall :=
  { url := "https://api.github.com/repos/" ++ owner ++ "/" ++ repo ++ "/git/commits",
    method := "POST",
    body := some (.commit { message := message, tree := tree, parents := parents }) }

/-- The PATCH request `updateReference` issues (always forced). -/
def refCall (owner repo ref sha : String) : RemoteCall :=
  { url := "https://api.github.com/repos/" ++ owner ++ "/" ++ repo ++ "/git/refs/" ++ ref,
    method := "PATCH",
    body := some (.refUpdate { sha := sha, force := true }) }

/-- The GET request `getFileContents` issues when a truthy branch is given. -/
def getContentsCall (owner repo path branch : String) : RemoteCall :=
  { url := contentsUrl owner repo path ++ "?ref=" ++ branch,
    method := "GET", body := none }

/-- The PUT request `createOrUpdateFile` issues. -/
def putCall (owner repo path : String) (body : PutBody) : RemoteCall :=
  { url := contentsUrl owner repo path, method := "PUT", body := some (.putFile body) }

/-- C1: for every `push(owner, repo, branch, edits, message)` against a
branch whose head commit SHA is `C0` (`= r0.object.sha`), the orchestrator
issues exactly four remote calls in order — ReadHead returning `C0`,
BuildTree with `base_tree = C0` and one blob entry per edit, BuildCommit
with `parents = [C0]` and the new tree's SHA, and a forced UpdateRef of
`heads/<branch>` to the new commit's SHA — and, the remote reference
update answering with the SHA it was asked to set (h4), the returned
`BranchReference`'s `object.sha` equals the new commit's SHA. -/
theorem pushFiles_four_calls (env : Env) (owner repo branch message : String)
    (files : List FileOperation) (r0 : GitRef) (t : TreeResp) (cm : CommitResp)
    (rf : GitRef)
    (h0 : env.request (readHeadCall owner repo branch) = .ok (.ref r0))
    (h1 : env.request (treeCall owner repo files (some r0.object.sha)) = .ok (.tree t))
    (h2 : env.request (commitCall owner repo message t.sha [r0.object.sha]) = .ok (.commit cm))
    (h3 : env.request (refCall owner repo ("heads/" ++ branch) cm.sha) = .ok (.ref rf))
    (h4 : rf.object.sha = cm.sha) :
    pushFiles env owner repo branch files message [] =
      (.ok rf,
       [.github (readHeadCall owner repo branch),
        .github (treeCall owner repo files (some r0.object.sha)),
        .github (commitCall owner repo message t.sha [r0.object.sha]),
        .github (refCall owner repo ("heads/" ++ branch) cm.sha)])
    ∧ rf.object.sha = cm.sha := by
  refine ⟨?_, h4⟩
  simp only [readHeadCall, treeCall, commitCall, refCall] at h0 h1 h2 h3 ⊢
  simp [pushFiles, createTree, createCommit, updateReference, bind_eq, M.bind,
    githubRequest, liftE, parseRef, parseTree, parseCommit, h0, h1, h2, h3]

/-- Concrete branch head used by witnesses. -/
def refA : GitRef := { ref := "refs/heads/main", object := { sha := "c0" } }

/-- Concrete tree response used by witnesses. -/
def treeA : TreeResp := { sha := "t1" }

/-- Concrete commit response used by witnesses. -/
def commitA : CommitResp := { sha := "c1" }

/-- Concrete updated reference used by witnesses (points at `commitA`). -/
def refB : GitRef := { ref := "refs/heads/main", object := { sha := "c1" } }

/-- The two edits of the spec's push example. -/
def filesA : List FileOperation :=
  [{ path := "a.txt", content := "X" }, { path := "b.txt", content := "Y" }]

/-- A well-behaved concrete remote: answers each request shape with the
fixed objects above; base64 is modelled as the identity. -/
def envA : Env where
  request := fun c =>
    match c.body with
    | none => .ok (.ref refA)
    | some (.tree _) => .ok (.tree treeA)
    | some (.commit _) => .ok (.commit commitA)
    | some (.refUpdate _) => .ok (.ref refB)
    | some (.putFile _) => .ok (.putResult { contentRecord := none, commit := commitA })
  fetchText := fun _ => .ok "<code>A</code><code>B</code>"
  toBase64 := fun s => s
  fromBase64 := fun s => s

/-- Witness for C1: the four-call trace and final SHA on the concrete
environment `envA`. -/
theorem pushFiles_four_calls_witness :
    pushFiles envA "o" "r" "main" filesA "msg" [] =
      (.ok refB,
       [.github (readHeadCall "o" "r" "main"),
        .github (treeCall "o" "r" filesA (some refA.object.sha)),
        .github (commitCall "o" "r" "msg" treeA.sha [refA.object.sha]),
        .github (refCall "o" "r" ("heads/" ++ "main") commitA.sha)])
    ∧ refB.object.sha = commitA.sha :=
  pushFiles_four_calls envA "o" "r" "main" "msg" filesA refA treeA commitA refB
    rfl rfl rfl rfl rfl

/-- C5: for every push whose ReadHead succeeds, a remote failure at the
BuildTree, BuildCommit or UpdateRef step aborts the orchestrator at that
step: the trace stops at the failing call (no subsequent step's call is
issued, nothing is retried) and the environment's error propagates to the
caller unchanged. -/
theorem pushFiles_abort_on_failure (env : Env) (owner repo branch message : String)
    (files : List FileOperation) (r0 : GitRef)
    (h0 : env.request (readHeadCall owner repo branch) = .ok (.ref r0)) :
    (∀ e : Err,
       env.request (treeCall owner repo files (some r0.object.sha)) = .error e →
       pushFiles env owner repo branch files message [] =
         (.error e,
          [.github (readHeadCall owner repo branch),
           .github (treeCall owner repo files (some r0.object.sha))]))
    ∧ (∀ (t : TreeResp) (e : Err),
       env.request (treeCall owner repo files (some r0.object.sha)) = .ok (.tree t) →
       env.request (commitCall owner repo message t.sha [r0.object.sha]) = .error e →
       pushFiles env owner repo branch files message [] =
         (.error e,
          [.github (readHeadCall owner repo branch),
           .github (treeCall owner repo files (some r0.object.sha)),
           .github (commitCall owner repo message t.sha [r0.object.sha])]))
    ∧ (∀ (t : TreeResp) (cm : CommitResp) (e : Err),
       env.request (treeCall owner repo files (some r0.object.sha)) = .ok (.tree t) →
       env.request (commitCall owner repo message t.sha [r0.object.sha]) = .ok (.commit cm) →
       env.request (refCall owner repo ("heads/" ++ branch) cm.sha) = .error e →
       pushFiles env owner repo branch files message [] =
         (.error e,
          [.github (readHeadCall owner repo branch),
           .github (treeCall owner repo files (some r0.object.sha)),
           .github (commitCall owner repo message t.sha [r0.object.sha]),
           .github (refCall owner repo ("heads/" ++ branch) cm.sha)])) := by
  simp only [readHeadCall, treeCall, commitCall, refCall] at h0 ⊢
  refine ⟨?_, ?_, ?_⟩
  · intro e h1
    simp [pushFiles, createTree, bind_eq, M.bind, githubRequest, liftE, parseRef, h0, h1]
  · intro t e h1 h2
    simp [pushFiles, createTree, createCommit, bind_eq, M.bind, githubRequest,
      liftE, parseRef, parseTree, h0, h1, h2]
  · intro t cm e h1 h2 h3
    simp [pushFiles, createTree, createCommit, updateReference, bind_eq, M.bind,
      githubRequest, liftE, parseRef, parseTree, parseCommit, h0, h1, h2, h3]

/-- A remote that fails every tree creation with a fixed error. -/
def envFailTree : Env where
  request := fun c =>
    match c.body with
    | none => .ok (.ref refA)
    | some (.tree _) => .error (.external "boom")
    | some _ => .error (.external "other")
  fetchText := fun _ => .error (.external "offline")
  toBase64 := fun s => s
  fromBase64 := fun s => s

/-- Witness for C5: on `envFailTree` the push aborts after the BuildTree
call with the environment's error. -/
theorem pushFiles_abort_on_failure_witness :
    pushFiles envFailTree "o" "r" "main" filesA "msg" [] =
      (.error (.external "boom"),
       [.github (readHeadCall "o" "r" "main"),
        .github (treeCall "o" "r" filesA (some refA.object.sha))]) :=
  (pushFiles_abort_on_failure envFailTree "o" "r" "main" "msg" filesA refA rfl).1
    (.external "boom") rfl

/-- C10: for every `getFileContents` call (on a named branch), when the
response is a single-file record with non-empty content, the returned
record's `content` field is the base64-decoded UTF-8 text of the raw
response content; when the response is an array (directory listing) it is
returned unchanged.  Exactly one GET is issued either way. -/
theorem getFileContents_decode (env : Env) (owner repo path branch : String)
    (hb : branch ≠ "") :
    (∀ f : FileRecord, f.content ≠ "" →
       env.request (getContentsCall owner repo path branch) = .ok (.content (.file f)) →
       getFileContents env owner repo path (some branch) [] =
         (.ok (.file { f with content := env.fromBase64 f.content }),
          [.github (getContentsCall owner repo path branch)]))
    ∧ (∀ l : List FileRecord,
       env.request (getContentsCall owner repo path branch) = .ok (.content (.dir l)) →
       getFileContents env owner repo path (some branch) [] =
         (.ok (.dir l), [.github (getContentsCall owner repo path branch)])) := by
  constructor
  · intro f hf h
    simp only [getContentsCall] at h ⊢
    simp [getFileContents, strFalsy, hb, bind_eq, M.bind, pure_eq, M.pure,
      githubRequest, liftE, parseContent, h, hf]
  · intro l h
    simp only [getContentsCall] at h ⊢
    simp [getFileContents, strFalsy, hb, bind_eq, M.bind, pure_eq, M.pure,
      githubRequest, liftE, parseContent, h]

/-- A remote whose contents endpoint returns a single-file record with
base64 content, and whose base64 decode is a concrete non-identity
function, for the C10 witness. -/
def envFileB64 : Env where
  request := fun c =>
    match c.body with
    | none => .ok (.content (.file { sha := "f1", content := "aGk=" }))
    | some (.putFile _) => .ok (.putResult { contentRecord := none, commit := commitA })
    | some _ => .error (.external "other")
  fetchText := fun _ => .error (.external "offline")
  toBase64 := fun s => s ++ "=b64"
  fromBase64 := fun s => if s = "aGk=" then "hi" else s

/-- Witness for C10: on `envFileB64` the returned record carries the
decoded text `"hi"`, not the raw `"aGk="`. -/
theorem getFileContents_decode_witness :
    getFileContents envFileB64 "o" "r" "f.txt" (some "main") [] =
      (.ok (.file { sha := "f1", content := "hi" }),
       [.github (getContentsCall "o" "r" "f.txt" "main")]) :=
  (getFileContents_decode envFileB64 "o" "r" "f.txt" "main" (by decide)).1
    { sha := "f1", content := "aGk=" } (by decide) rfl

/-- C4: for every single-file write (literal content) where the caller does
not supply a sha, exactly one pre-read of the file at `path` on `branch` is
attempted before the single write call; if it returns a single-file record
its SHA becomes the effective sha of the write body; if it returns a
directory listing no sha is used; and if it throws, the error is swallowed
(not propagated) and the write proceeds with no sha, exactly as for a new
file. -/
theorem createOrUpdateFile_sha_discovery (env : Env) (owner repo path c message branch : String)
    (hb : branch ≠ "") :
    (∀ (f : FileRecord) (pr : PutResp), f.sha ≠ "" →
       env.request (getContentsCall owner repo path branch) = .ok (.content (.file f)) →
       env.request (putCall owner repo path
         { message := message, content := env.toBase64 c, branch := branch,
           sha := some f.sha }) = .ok (.putResult pr) →
       createOrUpdateFile env owner repo path (some c) none message branch none [] =
         (.ok pr,
          [.github (getContentsCall owner repo path branch),
           .github (putCall owner repo path
             { message := message, content := env.toBase64 c, branch := branch,
               sha := some f.sha })]))
    ∧ (∀ (l : List FileRecord) (pr : PutResp),
       env.request (getContentsCall owner repo path branch) = .ok (.content (.dir l)) →
       env.request (putCall owner repo path
         { message := message, content := env.toBase64 c, branch := branch,
           sha := none }) = .ok (.putResult pr) →
       createOrUpdateFile env owner repo path (some c) none message branch none [] =
         (.ok pr,
          [.github (getContentsCall owner repo path branch),
           .github (putCall owner repo path
             { message := message, content := env.toBase64 c, branch := branch,
               sha := none })]))
    ∧ (∀ (e : Err) (pr : PutResp),
       env.request (getContentsCall owner repo path branch) = .error e →
       env.request (putCall owner repo path
         { message := message, content := env.toBase64 c, branch := branch,
           sha := none }) = .ok (.putResult pr) →
       createOrUpdateFile env owner repo path (some c) none message branch none [] =
         (.ok pr,
          [.github (getContentsCall owner repo path branch),
           .github (putCall owner repo path
             { message := message, content := env.toBase64 c, branch := branch,
               sha := none })])) := by
  refine ⟨?_, ?_, ?_⟩
  · intro f pr hf h1 h2
    simp only [getContentsCall, putCall] at h1 h2 ⊢
    by_cases hfc : f.content = "" <;>
      simp [createOrUpdateFile, getFileContents, strFalsy, hb, hf, hfc, bind_eq,
        M.bind, pure_eq, M.pure, M.tryCatch, githubRequest, liftE, parseContent,
        parsePut, h1, h2]
  · intro l pr h1 h2
    simp only [getContentsCall, putCall] at h1 h2 ⊢
    simp [createOrUpdateFile, getFileContents, strFalsy, hb, bind_eq, M.bind,
      pure_eq, M.pure, M.tryCatch, githubRequest, liftE, parseContent, parsePut,
      h1, h2]
  · intro e pr h1 h2
    simp only [getContentsCall, putCall] at h1 h2 ⊢
    simp [createOrUpdateFile, getFileContents, strFalsy, hb, bind_eq, M.bind,
      pure_eq, M.pure, M.tryCatch, githubRequest, liftE, parseContent, parsePut,
      h1, h2]

/-- A remote whose contents GET throws (file absent) but whose PUT
succeeds, for exercising the swallowed pre-read failure. -/
def envGetFails : Env where
  request := fun c =>
    match c.body with
    | none => .error (.external "404 Not Found")
    | some (.putFile _) => .ok (.putResult { contentRecord := none, commit := commitA })
    | some _ => .error (.external "other")
  fetchText := fun _ => .error (.external "offline")
  toBase64 := fun s => s ++ "=b64"
  fromBase64 := fun s => s

/-- Witness for C4: on `envGetFails` the pre-read throws, the error is
swallowed, and the write succeeds with no sha in its body. -/
theorem createOrUpdateFile_sha_discovery_witness :
    createOrUpdateFile envGetFails "o" "r" "f.txt" (some "hello") none "m" "main" none [] =
      (.ok { contentRecord := none, commit := commitA },
       [.github (getContentsCall "o" "r" "f.txt" "main"),
        .github (putCall "o" "r" "f.txt"
          { message := "m", content := "hello=b64", branch := "main", sha := none })]) :=
  (createOrUpdateFile_sha_discovery envGetFails "o" "r" "f.txt" "hello" "m" "main"
    (by decide)).2.2 (.external "404 Not Found")
    { contentRecord := none, commit := commitA } rfl rfl

/-- C6: for every single-file write (literal content), exactly one write
call is issued and its body is `{message, content: base64(content),
branch}`, with a `sha` field included if and only if an effective SHA is
known: included as the caller's sha when supplied (non-empty), included as
the pre-read record's sha when discovered, and absent when the pre-read
failed and nothing was supplied. -/
theorem createOrUpdateFile_put_body (env : Env) (owner repo path c message branch : String)
    (hb : branch ≠ "") :
    (∀ (s : String) (pr : PutResp), s ≠ "" →
       env.request (putCall owner repo path
         { message := message, content := env.toBase64 c, branch := branch,
           sha := some s }) = .ok (.putResult pr) →
       createOrUpdateFile env owner repo path (some c) none message branch (some s) [] =
         (.ok pr,
          [.github (putCall owner repo path
            { message := message, content := env.toBase64 c, branch := branch,
              sha := some s })]))
    ∧ (∀ (f : FileRecord) (pr : PutResp), f.sha ≠ "" →
       env.request (getContentsCall owner repo path branch) = .ok (.content (.file f)) →
       env.request (putCall owner repo path
         { message := message, content := env.toBase64 c, branch := branch,
           sha := some f.sha }) = .ok (.putResult pr) →
       createOrUpdateFile env owner repo path (some c) none message branch none [] =
         (.ok pr,
          [.github (getContentsCall owner repo path branch),
           .github (putCall owner repo path
             { message := message, content := env.toBase64 c, branch := branch,
               sha := some f.sha })]))
    ∧ (∀ (e : Err) (pr : PutResp),
       env.request (getContentsCall owner repo path branch) = .error e →
       env.request (putCall owner repo path
         { message := message, content := env.toBase64 c, branch := branch,
           sha := none }) = .ok (.putResult pr) →
       createOrUpdateFile env owner repo path (some c) none message branch none [] =
         (.ok pr,
          [.github (getContentsCall owner repo path branch),
           .github (putCall owner repo path
             { message := message, content := env.toBase64 c, branch := branch,
               sha := none })])) := by
  refine ⟨?_, ?_, ?_⟩
  · intro s pr hs h2
    simp only [putCall] at h2 ⊢
    simp [createOrUpdateFile, strFalsy, hs, bind_eq, M.bind, pure_eq, M.pure,
      githubRequest, liftE, parsePut, h2]
  · intro f pr hf h1 h2
    simp only [getContentsCall, putCall] at h1 h2 ⊢
    by_cases hfc : f.content = "" <;>
      simp [createOrUpdateFile, getFileContents, strFalsy, hb, hf, hfc, bind_eq,
        M.bind, pure_eq, M.pure, M.tryCatch, githubRequest, liftE, parseContent,
        parsePut, h1, h2]
  · intro e pr h1 h2
    simp only [getContentsCall, putCall] at h1 h2 ⊢
    simp [createOrUpdateFile, getFileContents, strFalsy, hb, bind_eq, M.bind,
      pure_eq, M.pure, M.tryCatch, githubRequest, liftE, parseContent, parsePut,
      h1, h2]

/-- Witness for C6: on `envFileB64` with a supplied sha the single PUT
carries the encoded content and the supplied sha. -/
theorem createOrUpdateFile_put_body_witness :
    createOrUpdateFile envFileB64 "o" "r" "f.txt" (some "hello") none "m" "main"
      (some "s9") [] =
      (.ok { contentRecord := none, commit := commitA },
       [.github (putCall "o" "r" "f.txt"
         { message := "m", content := "hello=b64", branch := "main",
           sha := some "s9" })]) :=
  (createOrUpdateFile_put_body envFileB64 "o" "r" "f.txt" "hello" "m" "main"
    (by decide)).1 "s9" { contentRecord := none, commit := commitA } (by decide) rfl

/-- C9: for every single-file write where the caller supplies a (non-empty)
sha, no pre-read is performed: whatever the remote answers, the write call
is the only remote call issued, and the supplied sha appears as-is in its
body. -/
theorem createOrUpdateFile_supplied_sha (env : Env) (owner repo path c message branch s : String)
    (hs : s ≠ "") :
    (createOrUpdateFile env owner repo path (some c) none message branch (some s) []).2 =
      [.github (putCall owner repo path
        { message := message, content := env.toBase64 c, branch := branch,
          sha := some s })] := by
  simp only [putCall]
  cases h2 : env.request
      { url := contentsUrl owner repo path, method := "PUT",
        body := some (.putFile
          { message := message, content := env.toBase64 c, branch := branch,
            sha := some s }) } with
  | ok r =>
    cases r <;>
      simp [createOrUpdateFile, strFalsy, hs, bind_eq, M.bind, pure_eq, M.pure,
        githubRequest, liftE, parsePut, h2]
  | error e =>
    simp [createOrUpdateFile, strFalsy, hs, bind_eq, M.bind, pure_eq, M.pure,
      githubRequest, liftE, parsePut, h2]

/-- Witness for C9: on `envFileB64` with supplied sha `"s9"` the trace is
the single PUT carrying that sha. -/
theorem createOrUpdateFile_supplied_sha_witness :
    (createOrUpdateFile envFileB64 "o" "r" "f.txt" (some "hello") none "m" "main"
      (some "s9") []).2 =
      [.github (putCall "o" "r" "f.txt"
        { message := "m", content := "hello=b64", branch := "main",
          sha := some "s9" })] :=
  createOrUpdateFile_supplied_sha envFileB64 "o" "r" "f.txt" "hello" "m" "main" "s9"
    (by decide)

/-- C3: for every call to the validated write tool, supplying both
`content` and `published_artifact_url`, or neither, fails with
`InvalidArgument` before any network call (empty trace); supplying exactly
one source uses that source: with `content` the PUT carries the encoding
of exactly that string and no fetch occurs, with `published_artifact_url`
the document is fetched and the PUT carries the encoding of its extracted,
entity-decoded code block. -/
theorem createOrUpdateFileTool_source_choice (env : Env)
    (owner repo path message branch : String) :
    (∀ (cv uv : String) (sha : Option String),
       createOrUpdateFileTool env owner repo path (some cv) (some uv) message branch sha [] =
         (.error (.invalidArgument
            "Either `content` or `published_artifact_url` must be provided, but not both"),
          []))
    ∧ (∀ sha : Option String,
       createOrUpdateFileTool env owner repo path none none message branch sha [] =
         (.error (.invalidArgument
            "Either `content` or `published_artifact_url` must be provided, but not both"),
          []))
    ∧ (∀ (cv s : String) (pr : PutResp), s ≠ "" →
       env.request (putCall owner repo path
         { message := message, content := env.toBase64 cv, branch := branch,
           sha := some s }) = .ok (.putResult pr) →
       createOrUpdateFileTool env owner repo path (some cv) none message branch (some s) [] =
         (.ok pr,
          [.github (putCall owner repo path
            { message := message, content := env.toBase64 cv, branch := branch,
              sha := some s })]))
    ∧ (∀ (uv html s : String) (cap : List Char) (pr : PutResp), s ≠ "" →
       env.fetchText uv = .ok html →
       codeMatchAux html.data = some cap →
       env.request (putCall owner repo path
         { message := message,
           content := env.toBase64 (decodeHTMLEntities (String.mk cap)),
           branch := branch, sha := some s }) = .ok (.putResult pr) →
       createOrUpdateFileTool env owner repo path none (some uv) message branch (some s) [] =
         (.ok pr,
          [.fetch uv,
           .github (putCall owner repo path
             { message := message,
               content := env.toBase64 (decodeHTMLEntities (String.mk cap)),
               branch := branch, sha := some s })])) := by
  refine ⟨?_, ?_, ?_, ?_⟩
  · intro cv uv sha
    simp [createOrUpdateFileTool, createOrUpdateFileArgsValid, M.throw]
  · intro sha
    simp [createOrUpdateFileTool, createOrUpdateFileArgsValid, M.throw]
  · intro cv s pr hs h2
    simp only [putCall] at h2 ⊢
    simp [createOrUpdateFileTool, createOrUpdateFileArgsValid, createOrUpdateFile,
      strFalsy, hs, bind_eq, M.bind, pure_eq, M.pure, githubRequest, liftE,
      parsePut, h2]
  · intro uv html s cap pr hs hfetch hmatch h2
    simp only [putCall] at h2 ⊢
    simp [createOrUpdateFileTool, createOrUpdateFileArgsValid, createOrUpdateFile,
      resolveFromArtifact, fetchDoc, hfetch, hmatch, strFalsy, hs, bind_eq, M.bind,
      pure_eq, M.pure, githubRequest, liftE, parsePut, h2]

/-- Witness for C3: on `envA`, the invalid both-present call makes no remote
call, and the url-sourced call fetches the document and writes the first
code block's text. -/
theorem createOrUpdateFileTool_source_choice_witness :
    createOrUpdateFileTool envA "o" "r" "f.txt" (some "c") (some "u") "m" "main"
        (some "s9") [] =
      (.error (.invalidArgument
         "Either `content` or `published_artifact_url` must be provided, but not both"),
       []) ∧
    createOrUpdateFileTool envA "o" "r" "f.txt" none (some "u") "m" "main"
        (some "s9") [] =
      (.ok { contentRecord := none, commit := commitA },
       [.fetch "u",
        .github (putCall "o" "r" "f.txt"
          { message := "m", content := "A", branch := "main", sha := some "s9" })]) :=
  ⟨(createOrUpdateFileTool_source_choice envA "o" "r" "f.txt" "m" "main").1
      "c" "u" (some "s9"),
   (createOrUpdateFileTool_source_choice envA "o" "r" "f.txt" "m" "main").2.2.2
      "u" "<code>A</code><code>B</code>" "s9" "A".data
      { contentRecord := none, commit := commitA }
      (by decide) rfl (by decide) rfl⟩

/-- `splitOnSubstr` finds the marked occurrence when no occurrence can
start earlier: if no character of `a` equals the pattern's first
character, the split lands exactly at the boundary. -/
theorem splitOnSubstr_at_first (c : Char) (ps b : List Char) :
    ∀ a : List Char, (∀ x ∈ a, x ≠ c) →
      splitOnSubstr (c :: ps) (a ++ (c :: ps) ++ b) = some (a, b) := by
  intro a
  induction a with
  | nil =>
    intro _
    have hpre : (c :: ps).isPrefixOf ((c :: ps) ++ b) = true := by
      rw [List.isPrefixOf_iff_prefix]
      exact List.prefix_append _ _
    simp only [List.nil_append, List.cons_append]
    rw [splitOnSubstr]
    simp only [← List.cons_append, hpre, if_pos]
    rw [List.drop_left]
  | cons x a2 ih =>
    intro h
    have hx : x ≠ c := h x (List.mem_cons_self x a2)
    have hpre : (c :: ps).isPrefixOf (x :: (a2 ++ (c :: ps) ++ b)) = false := by
      simp [List.isPrefixOf]
      intro hc
      exact absurd hc.symm hx
    have ih2 := ih (fun y hy => h y (List.mem_cons_of_mem x hy))
    simp only [List.cons_append]
    rw [splitOnSubstr]
    simp only [List.cons_append] at hpre
    rw [hpre]
    simp only [Bool.false_eq_true, if_false]
    simp only [List.cons_append] at ih2
    rw [ih2]

/-- No match can start inside a region free of `<`: `codeMatchAux` skips
over it. -/
theorem codeMatchAux_skip (l : List Char) :
    ∀ pre : List Char, (∀ x ∈ pre, x ≠ '<') →
      codeMatchAux (pre ++ l) = codeMatchAux l := by
  intro pre
  induction pre with
  | nil => intro _; rfl
  | cons x p2 ih =>
    intro h
    have hx : x ≠ '<' := h x (List.mem_cons_self x p2)
    have hpre : "<code".data.isPrefixOf (x :: (p2 ++ l)) = false := by
      simp [List.isPrefixOf, String.data]
      intro hc
      exact absurd hc.symm hx
    simp only [List.cons_append]
    rw [codeMatchAux]
    rw [hpre]
    simp only [Bool.false_eq_true, if_false]
    exact ih (fun y hy => h y (List.mem_cons_of_mem x hy))

/-- A document with no `<` at all has no code region: no match. -/
theorem codeMatchAux_none (l : List Char) (h : ∀ x ∈ l, x ≠ '<') :
    codeMatchAux l = none := by
  have := codeMatchAux_skip [] l h
  simpa using this

/-- The first code region of a well-delimited document is matched: with no
`<` before the region, no `>` inside the opening tag's attribute text, and
no `<` in the body, the capture is exactly the body — whatever `restL`
holds, including further regions. -/
theorem codeMatchAux_at_region (attrsL bodyL restL : List Char)
    (hattrs : ∀ x ∈ attrsL, x ≠ '>')
    (hbody : ∀ x ∈ bodyL, x ≠ '<') :
    codeMatchAux ("<code".data ++ (attrsL ++ (['>'] ++ (bodyL ++ ("</code>".data ++ restL))))) =
      some bodyL := by
  have s1 := splitOnSubstr_at_first '>' [] (bodyL ++ ("</code>".data ++ restL)) attrsL hattrs
  have s2 := splitOnSubstr_at_first '<' ['/', 'c', 'o', 'd', 'e', '>'] restL bodyL hbody
  have e0 : "<code".data = ['<', 'c', 'o', 'd', 'e'] := rfl
  have e2 : "</code>".data = ['<', '/', 'c', 'o', 'd', 'e', '>'] := rfl
  rw [e2] at s1 ⊢
  rw [e0]
  simp only [List.cons_append, List.nil_append, List.append_assoc] at s1 s2 ⊢
  rw [codeMatchAux]
  simp only [List.isPrefixOf, beq_self_eq_true, Bool.true_and, if_true,
    List.drop_succ_cons, List.drop_zero]
  rw [s1]
  simp only [s2]

/-- C2 counterexample: a fetched document with two embedded code regions
(`envA` serves `<code>A</code><code>B</code>`) does not fail with a
content-extraction error — the resolver succeeds and returns the first
region's text, contradicting the claim that two-or-more regions fail. -/
theorem resolveFromArtifact_two_regions_ok :
    resolveFromArtifact envA "u" [] = (.ok "A", [Call.fetch "u"]) := rfl

/-- C2 amended: for every fetched document, the resolver returns the
entity-decoded text of the first embedded code region when at least one
region exists (here: a region preceded by `<`-free text, with a `>`-free
attribute area and a `<`-free body, followed by anything — more regions
included); a document with no region at all (no `<` anywhere) fails with
the content-extraction error. -/
theorem resolveFromArtifact_first_region (env : Env) (u : String) :
    (∀ pre attrs body rest : String,
       (∀ ch ∈ pre.data, ch ≠ '<') →
       (∀ ch ∈ attrs.data, ch ≠ '>') →
       (∀ ch ∈ body.data, ch ≠ '<') →
       env.fetchText u = .ok (pre ++ "<code" ++ attrs ++ ">" ++ body ++ "</code>" ++ rest) →
       resolveFromArtifact env u [] =
         (.ok (decodeHTMLEntities body), [Call.fetch u]))
    ∧ (∀ html : String,
       env.fetchText u = .ok html →
       (∀ ch ∈ html.data, ch ≠ '<') →
       resolveFromArtifact env u [] =
         (.error (.jsError "Could not find a singular <code> block in the published artifact"),
          [Call.fetch u])) := by
  constructor
  · intro pre attrs body rest hpre hattrs hbody hdoc
    have egt : ">".data = ['>'] := rfl
    have hmatch : codeMatchAux
        (pre ++ "<code" ++ attrs ++ ">" ++ body ++ "</code>" ++ rest).data =
        some body.data := by
      simp only [String.data_append, List.append_assoc, egt]
      rw [codeMatchAux_skip _ pre.data hpre]
      exact codeMatchAux_at_region attrs.data body.data rest.data hattrs hbody
    simp only [resolveFromArtifact, fetchDoc, hdoc, bind_eq, M.bind]
    rw [hmatch]
    simp [pure_eq, M.pure]
  · intro html hdoc hnone
    simp [resolveFromArtifact, fetchDoc, hdoc, bind_eq, M.bind, pure_eq, M.pure,
      codeMatchAux_none html.data hnone, M.throw]

/-- A remote serving a two-region document whose first region is
well-delimited, for the C2 witness. -/
def envDoc2 : Env where
  request := fun _ => .error (.external "none")
  fetchText := fun _ => .ok "x<code>hello</code><code>2nd</code>"
  toBase64 := fun s => s
  fromBase64 := fun s => s

/-- Witness for C2 (amended): on `envDoc2` the resolver returns the first
region's text `"hello"` even though a second region follows. -/
theorem resolveFromArtifact_first_region_witness :
    resolveFromArtifact envDoc2 "u" [] = (.ok "hello", [Call.fetch "u"]) :=
  (resolveFromArtifact_first_region envDoc2 "u").1 "x" "" "hello" "<code>2nd</code>"
    (by decide) (by decide) (by decide) rfl

/-- The six entity strings the decoder's table recognizes. -/
def entityKeys : List String :=
  ["&quot;", "&amp;", "&apos;", "&lt;", "&gt;", "&#x27;"]

/-- A string is entity-free when none of the six table entries occurs in
it as a substring. -/
def entFree (s : String) : Bool :=
  entityKeys.all (fun k => !(hasSub k.data s.data))

/-- A pattern that is a prefix is a substring. -/
theorem hasSub_of_isPrefixOf (pat l : List Char) (h : pat.isPrefixOf l = true) :
    hasSub pat l = true := by
  cases l with
  | nil =>
    cases pat with
    | nil => rfl
    | cons a as => simp [List.isPrefixOf] at h
  | cons c rest => simp [hasSub, h]

/-- Substring occurrence is preserved by consing in front. -/
theorem hasSub_cons_of (pat : List Char) (c : Char) (rest : List Char)
    (h : hasSub pat rest = true) : hasSub pat (c :: rest) = true := by
  simp [hasSub, h]

/-- Substring occurrence is preserved by appending on the left. -/
theorem hasSub_append_right (pat a b : List Char) (h : hasSub pat b = true) :
    hasSub pat (a ++ b) = true := by
  induction a with
  | nil => simpa
  | cons x a2 ih => simpa [List.cons_append] using hasSub_cons_of pat x _ ih

/-- A hit in the decoder's table means the matched text is one of the six
entity strings. -/
theorem entLookup_isSome_mem (s : String) (ch : Char) (h : entLookup s = some ch) :
    s ∈ entityKeys := by
  unfold entLookup at h
  split_ifs at h with h1 h2 h3 h4 h5 h6 <;> simp [entityKeys, *]

/-- The decoder is the identity on entity-free character lists. -/
theorem decodeFuel_entFree :
    ∀ (n : Nat) (l : List Char), l.length ≤ n →
      (∀ k ∈ entityKeys, hasSub k.data l = false) → decodeFuel n l = l := by
  intro n
  induction n with
  | zero =>
    intro l hl _
    have : l = [] := List.eq_nil_of_length_eq_zero (Nat.le_zero.mp hl)
    subst this
    rfl
  | succ n ih =>
    intro l hl hfree
    cases l with
    | nil => rfl
    | cons c rest =>
      have hlr : rest.length ≤ n := by
        simp only [List.length_cons] at hl
        omega
      have hfree_rest : ∀ k ∈ entityKeys, hasSub k.data rest = false := by
        intro k hk
        cases hx : hasSub k.data rest with
        | false => rfl
        | true =>
          have h2 := hfree k hk
          simp [hasSub, hx] at h2
      by_cases hc : c = '&'
      · subst hc
        simp only [decodeFuel, eq_self_iff_true, if_true]
        cases hdw : rest.dropWhile isEntChar with
        | nil =>
          rw [ih rest hlr hfree_rest]
        | cons d rest2 =>
          by_cases hd : d = ';'
          · subst hd
            by_cases htw : rest.takeWhile isEntChar = []
            · simp only [if_pos htw]
              rw [ih rest hlr hfree_rest]
            · simp only [if_neg htw]
              have hsplit : rest.takeWhile isEntChar ++ ';' :: rest2 = rest := by
                rw [← hdw]
                exact List.takeWhile_append_dropWhile isEntChar rest
              have eqA : ('&' :: (rest.takeWhile isEntChar ++ [';'])) ++ rest2 = '&' :: rest := by
                simp only [List.cons_append, List.append_assoc, List.singleton_append,
                  List.nil_append]
                rw [hsplit]
              have hlen2 : rest2.length ≤ n := by
                have := congrArg List.length hsplit
                simp only [List.length_append, List.length_cons] at this
                omega
              have hfree_rest2 : ∀ k ∈ entityKeys, hasSub k.data rest2 = false := by
                intro k hk
                cases hx : hasSub k.data rest2 with
                | false => rfl
                | true =>
                  exfalso
                  have h3 := hasSub_append_right k.data
                    ('&' :: (rest.takeWhile isEntChar ++ [';'])) rest2 hx
                  rw [eqA] at h3
                  have h4 := hfree k hk
                  rw [h3] at h4
                  exact Bool.true_eq_false.mp h4
              cases hlook : entLookup (String.mk ('&' :: (rest.takeWhile isEntChar ++ [';']))) with
              | some ch =>
                exfalso
                have hmem := entLookup_isSome_mem _ _ hlook
                have hpre : (String.mk ('&' :: (rest.takeWhile isEntChar ++ [';']))).data.isPrefixOf
                    ('&' :: rest) = true := by
                  rw [List.isPrefixOf_iff_prefix]
                  exact ⟨rest2, eqA⟩
                have h5 := hasSub_of_isPrefixOf _ _ hpre
                have h6 := hfree _ hmem
                rw [h5] at h6
                exact Bool.true_eq_false.mp h6
              | none =>
                simp only [hlook]
                rw [ih rest2 hlen2 hfree_rest2]
                exact eqA
          · split
            next heq =>
              exfalso
              injection heq with h1 _
              exact hd h1
            next =>
              rw [ih rest hlr hfree_rest]
      · simp only [decodeFuel, if_neg hc]
        rw [ih rest hlr hfree_rest]

/-- One-step unfolding: a character other than `&` is copied. -/
theorem decodeFuel_cons_ne (fuel : Nat) (c : Char) (rest : List Char) (hc : c ≠ '&') :
    decodeFuel (fuel + 1) (c :: rest) = c :: decodeFuel fuel rest := by
  simp only [decodeFuel, if_neg hc]

/-- One-step unfolding: `&` whose tail is entity characters to the end
(no terminator at all) is copied. -/
theorem decodeFuel_amp_nil (fuel : Nat) (rest : List Char)
    (hdw : rest.dropWhile isEntChar = []) :
    decodeFuel (fuel + 1) ('&' :: rest) = '&' :: decodeFuel fuel rest := by
  simp only [decodeFuel, eq_self_iff_true, if_true, hdw]

/-- One-step unfolding: `&` whose maximal entity-character run is followed
by something other than `;` is copied (no match at this position). -/
theorem decodeFuel_amp_noSemi (fuel : Nat) (rest rest2 : List Char) (d : Char)
    (hdw : rest.dropWhile isEntChar = d :: rest2) (hd : d ≠ ';') :
    decodeFuel (fuel + 1) ('&' :: rest) = '&' :: decodeFuel fuel rest := by
  simp only [decodeFuel, eq_self_iff_true, if_true, hdw]
  split
  next heq =>
    exfalso
    injection heq with h1 _
    exact hd h1
  next => rfl

/-- One-step unfolding: `&` immediately followed by `;` (empty run, the
regex needs at least one entity character) is copied. -/
theorem decodeFuel_amp_emptyRun (fuel : Nat) (rest rest2 : List Char)
    (hdw : rest.dropWhile isEntChar = ';' :: rest2)
    (htw : rest.takeWhile isEntChar = []) :
    decodeFuel (fuel + 1) ('&' :: rest) = '&' :: decodeFuel fuel rest := by
  simp only [decodeFuel, eq_self_iff_true, if_true, hdw, if_pos htw]

/-- One-step unfolding: a match the table recognizes is replaced by its
character, and scanning resumes after the match. -/
theorem decodeFuel_amp_hit (fuel : Nat) (rest rest2 : List Char) (ch : Char)
    (hdw : rest.dropWhile isEntChar = ';' :: rest2)
    (htw : rest.takeWhile isEntChar ≠ [])
    (hlook : entLookup (String.mk ('&' :: (rest.takeWhile isEntChar ++ [';']))) = some ch) :
    decodeFuel (fuel + 1) ('&' :: rest) = ch :: decodeFuel fuel rest2 := by
  simp only [decodeFuel, eq_self_iff_true, if_true, hdw, if_neg htw, hlook]
  rfl

/-- One-step unfolding: a match the table does not recognize is kept
verbatim, and scanning resumes after the match. -/
theorem decodeFuel_amp_miss (fuel : Nat) (rest rest2 : List Char)
    (hdw : rest.dropWhile isEntChar = ';' :: rest2)
    (htw : rest.takeWhile isEntChar ≠ [])
    (hlook : entLookup (String.mk ('&' :: (rest.takeWhile isEntChar ++ [';']))) = none) :
    decodeFuel (fuel + 1) ('&' :: rest) =
      ('&' :: (rest.takeWhile isEntChar ++ [';'])) ++ decodeFuel fuel rest2 := by
  simp only [decodeFuel, eq_self_iff_true, if_true, hdw, if_neg htw, hlook]

/-- The fuel is irrelevant as long as it covers the input length (each step
consumes at least one character): the decoder is a total function of the
input. -/
theorem decodeFuel_congr :
    ∀ (n m : Nat) (l : List Char), l.length ≤ n → l.length ≤ m →
      decodeFuel n l = decodeFuel m l := by
  intro n
  induction n with
  | zero =>
    intro m l hn _
    have : l = [] := List.eq_nil_of_length_eq_zero (Nat.le_zero.mp hn)
    subst this
    cases m <;> rfl
  | succ n ih =>
    intro m l hn hm
    cases l with
    | nil => cases m <;> rfl
    | cons c rest =>
      cases m with
      | zero => simp at hm
      | succ m =>
        have hrn : rest.length ≤ n := by
          simp only [List.length_cons] at hn
          omega
        have hrm : rest.length ≤ m := by
          simp only [List.length_cons] at hm
          omega
        by_cases hc : c = '&'
        · subst hc
          cases hdw : rest.dropWhile isEntChar with
          | nil =>
            rw [decodeFuel_amp_nil n rest hdw, decodeFuel_amp_nil m rest hdw,
              ih m rest hrn hrm]
          | cons d rest2 =>
            by_cases hd : d = ';'
            · subst hd
              by_cases htw : rest.takeWhile isEntChar = []
              · rw [decodeFuel_amp_emptyRun n rest rest2 hdw htw,
                  decodeFuel_amp_emptyRun m rest rest2 hdw htw, ih m rest hrn hrm]
              · have hsplit : rest.takeWhile isEntChar ++ ';' :: rest2 = rest := by
                  rw [← hdw]
                  exact List.takeWhile_append_dropWhile isEntChar rest
                have hlen2n : rest2.length ≤ n := by
                  have := congrArg List.length hsplit
                  simp only [List.length_append, List.length_cons] at this
                  omega
                have hlen2m : rest2.length ≤ m := by
                  have := congrArg List.length hsplit
                  simp only [List.length_append, List.length_cons] at this
                  omega
                cases hlook : entLookup
                    (String.mk ('&' :: (rest.takeWhile isEntChar ++ [';']))) with
                | some ch =>
                  rw [decodeFuel_amp_hit n rest rest2 ch hdw htw hlook,
                    decodeFuel_amp_hit m rest rest2 ch hdw htw hlook,
                    ih m rest2 hlen2n hlen2m]
                | none =>
                  rw [decodeFuel_amp_miss n rest rest2 hdw htw hlook,
                    decodeFuel_amp_miss m rest rest2 hdw htw hlook,
                    ih m rest2 hlen2n hlen2m]
            · rw [decodeFuel_amp_noSemi n rest rest2 d hdw hd,
                decodeFuel_amp_noSemi m rest rest2 d hdw hd, ih m rest hrn hrm]
        · rw [decodeFuel_cons_ne n c rest hc, decodeFuel_cons_ne m c rest hc,
            ih m rest hrn hrm]

/-- The decoder replaces the occurrence of a recognized entity that follows
an entity-free prefix: the prefix is copied verbatim (no match can start in
it, and none can cross into the entity because `&` is not an entity
character), the entity becomes its table character, and scanning resumes on
the arbitrary tail. -/
theorem decodeFuel_entity_step :
    ∀ (n : Nat) (a mid rest : List Char) (ch : Char),
      (a ++ ('&' :: (mid ++ [';'])) ++ rest).length ≤ n →
      mid ≠ [] →
      (∀ x ∈ mid, isEntChar x = true) →
      entLookup (String.mk ('&' :: (mid ++ [';']))) = some ch →
      (∀ k ∈ entityKeys, hasSub k.data a = false) →
      decodeFuel n (a ++ ('&' :: (mid ++ [';'])) ++ rest) =
        a ++ ch :: decodeFuel rest.length rest := by
  intro n
  induction n with
  | zero =>
    intro a mid rest ch hl _ _ _ _
    exfalso
    simp only [List.length_append, List.length_cons] at hl
    omega
  | succ n ih =>
    intro a mid rest ch hl hmid hmidc hlook hfree
    have hSemi : isEntChar ';' = false := by decide
    have hAmp : isEntChar '&' = false := by decide
    cases a with
    | nil =>
      have e1 : (([] : List Char) ++ ('&' :: (mid ++ [';'])) ++ rest)
          = '&' :: (mid ++ ';' :: rest) := by
        simp [List.append_assoc]
      rw [e1]
      have hrl : rest.length ≤ n := by
        simp only [List.nil_append, List.length_append, List.length_cons] at hl
        omega
      have hdwB : (mid ++ ';' :: rest).dropWhile isEntChar = ';' :: rest := by
        rw [List.dropWhile_append_of_pos (fun x hx => hmidc x hx)]
        simp [List.dropWhile_cons, hSemi]
      have htwB : (mid ++ ';' :: rest).takeWhile isEntChar = mid := by
        rw [List.takeWhile_append_of_pos (fun x hx => hmidc x hx)]
        simp [List.takeWhile_cons, hSemi]
      rw [decodeFuel_amp_hit n (mid ++ ';' :: rest) rest ch hdwB
        (by rw [htwB]; exact hmid) (by rw [htwB]; exact hlook)]
      simp only [List.nil_append]
      rw [decodeFuel_congr n rest.length rest hrl le_rfl]
    | cons c a1 =>
      have hfree1 : ∀ k ∈ entityKeys, hasSub k.data a1 = false := by
        intro k hk
        cases hx : hasSub k.data a1 with
        | false => rfl
        | true =>
          have h2 := hfree k hk
          simp [hasSub, hx] at h2
      have hl1 : (a1 ++ ('&' :: (mid ++ [';'])) ++ rest).length ≤ n := by
        simp only [List.cons_append, List.length_append, List.length_cons] at hl ⊢
        omega
      by_cases hc : c = '&'
      · subst hc
        have e2 : (('&' :: a1) ++ ('&' :: (mid ++ [';'])) ++ rest)
            = '&' :: (a1 ++ ('&' :: (mid ++ [';'])) ++ rest) := by
          simp [List.cons_append]
        rw [e2]
        cases hdwa : a1.dropWhile isEntChar with
        | nil =>
          have hTd : (a1 ++ ('&' :: (mid ++ [';'])) ++ rest).dropWhile isEntChar
              = '&' :: ((mid ++ [';']) ++ rest) := by
            rw [List.append_assoc, List.dropWhile_append]
            simp [hdwa, List.dropWhile_cons, hAmp, List.cons_append]
          rw [decodeFuel_amp_noSemi n _ _ '&' hTd (by decide)]
          rw [ih a1 mid rest ch hl1 hmid hmidc hlook hfree1]
          simp [List.cons_append]
        | cons d a2 =>
          have hTd : (a1 ++ ('&' :: (mid ++ [';'])) ++ rest).dropWhile isEntChar
              = d :: (a2 ++ ('&' :: (mid ++ [';'])) ++ rest) := by
            rw [List.append_assoc, List.dropWhile_append]
            simp [hdwa, List.cons_append, List.append_assoc]
          by_cases hd : d = ';'
          · subst hd
            have hsplit : a1.takeWhile isEntChar ++ ';' :: a2 = a1 := by
              rw [← hdwa]
              exact List.takeWhile_append_dropWhile isEntChar a1
            have htchars : ∀ x ∈ a1.takeWhile isEntChar, isEntChar x = true :=
              fun x hx => List.mem_takeWhile_imp hx
            have hTt : (a1 ++ ('&' :: (mid ++ [';'])) ++ rest).takeWhile isEntChar
                = a1.takeWhile isEntChar := by
              have e3 : (a1 ++ ('&' :: (mid ++ [';'])) ++ rest)
                  = a1.takeWhile isEntChar
                      ++ ';' :: (a2 ++ ('&' :: (mid ++ [';'])) ++ rest) := by
                conv_lhs => rw [← hsplit]
                simp [List.cons_append, List.append_assoc]
              rw [e3, List.takeWhile_append_of_pos htchars]
              simp [List.takeWhile_cons, hSemi]
            have eqA : ('&' :: (a1.takeWhile isEntChar ++ [';'])) ++ a2 = '&' :: a1 := by
              simp only [List.cons_append, List.append_assoc, List.singleton_append,
                List.nil_append]
              rw [hsplit]
            by_cases htw0 : a1.takeWhile isEntChar = []
            · rw [decodeFuel_amp_emptyRun n _ _ hTd (by rw [hTt]; exact htw0)]
              rw [ih a1 mid rest ch hl1 hmid hmidc hlook hfree1]
              simp [List.cons_append]
            · cases hlook2 : entLookup
                  (String.mk ('&' :: (a1.takeWhile isEntChar ++ [';']))) with
              | some ch2 =>
                exfalso
                have hmem := entLookup_isSome_mem _ _ hlook2
                have hpre : (String.mk ('&' :: (a1.takeWhile isEntChar ++ [';']))).data.isPrefixOf
                    ('&' :: a1) = true := by
                  rw [List.isPrefixOf_iff_prefix]
                  exact ⟨a2, eqA⟩
                have h5 := hasSub_of_isPrefixOf _ _ hpre
                have h6 := hfree _ hmem
                rw [h5] at h6
                exact Bool.true_eq_false.mp h6
              | none =>
                rw [decodeFuel_amp_miss n _ _ hTd (by rw [hTt]; exact htw0)
                  (by rw [hTt]; exact hlook2)]
                have hfree2 : ∀ k ∈ entityKeys, hasSub k.data a2 = false := by
                  intro k hk
                  cases hx : hasSub k.data a2 with
                  | false => rfl
                  | true =>
                    exfalso
                    have h3 := hasSub_append_right k.data
                      ('&' :: (a1.takeWhile isEntChar ++ [';'])) a2 hx
                    rw [eqA] at h3
                    have h4 := hfree k hk
                    rw [h3] at h4
                    exact Bool.true_eq_false.mp h4
                have hl2 : (a2 ++ ('&' :: (mid ++ [';'])) ++ rest).length ≤ n := by
                  have hlena := congrArg List.length hsplit
                  simp only [List.length_append, List.length_cons] at hlena
                  simp only [List.cons_append, List.length_append, List.length_cons] at hl ⊢
                  omega
                rw [hTt, ih a2 mid rest ch hl2 hmid hmidc hlook hfree2]
                conv_rhs => rw [← hsplit]
                simp [List.cons_append, List.append_assoc]
          · rw [decodeFuel_amp_noSemi n _ _ d hTd hd]
            rw [ih a1 mid rest ch hl1 hmid hmidc hlook hfree1]
            simp [List.cons_append]
      · have e2 : ((c :: a1) ++ ('&' :: (mid ++ [';'])) ++ rest)
            = c :: (a1 ++ ('&' :: (mid ++ [';'])) ++ rest) := by
          simp [List.cons_append]
        rw [e2, decodeFuel_cons_ne n c _ hc]
        rw [ih a1 mid rest ch hl1 hmid hmidc hlook hfree1]
        simp [List.cons_append]

/-- C8: the entity decoder replaces each occurrence of the six entities by
its character and leaves every other substring unchanged: each entity
decodes to its character; a string with no occurrence of the six
(unrecognized `&...;` sequences included) is returned unchanged,
`decode(plainText) = plainText`; and within an arbitrary string, an
occurrence of an entity after an entity-free prefix is replaced by its
character with the prefix kept verbatim and the arbitrary remainder decoded
in turn — iterating this clause decodes every occurrence left to right. -/
theorem decodeHTMLEntities_spec :
    (decodeHTMLEntities "&quot;" = "\"" ∧
     decodeHTMLEntities "&amp;" = "&" ∧
     decodeHTMLEntities "&apos;" = String.singleton '\x27' ∧
     decodeHTMLEntities "&lt;" = "<" ∧
     decodeHTMLEntities "&gt;" = ">" ∧
     decodeHTMLEntities "&#x27;" = String.singleton '\x27')
    ∧ (∀ s : String, entFree s = true → decodeHTMLEntities s = s)
    ∧ (∀ (a k rest : String) (ch : Char),
        k ∈ entityKeys → entLookup k = some ch → entFree a = true →
        decodeHTMLEntities (a ++ k ++ rest) =
          a ++ String.singleton ch ++ decodeHTMLEntities rest) := by
  refine ⟨⟨by decide, by decide, by decide, by decide, by decide, by decide⟩, ?_, ?_⟩
  · intro s hs
    have hfree : ∀ k ∈ entityKeys, hasSub k.data s.data = false := by
      simp only [entFree, List.all_eq_true, Bool.not_eq_true'] at hs
      exact hs
    have hid := decodeFuel_entFree s.data.length s.data le_rfl hfree
    rw [decodeHTMLEntities, hid]
  · intro a k rest ch hk hlook ha
    have hfree : ∀ k2 ∈ entityKeys, hasSub k2.data a.data = false := by
      simp only [entFree, List.all_eq_true, Bool.not_eq_true'] at ha
      exact ha
    have hshape : ∃ mid : List Char, k.data = '&' :: (mid ++ [';']) ∧ mid ≠ [] ∧
        ∀ x ∈ mid, isEntChar x = true := by
      simp only [entityKeys, List.mem_cons, List.not_mem_nil, or_false] at hk
      rcases hk with rfl | rfl | rfl | rfl | rfl | rfl
      · exact ⟨['q', 'u', 'o', 't'], rfl, by decide, by decide⟩
      · exact ⟨['a', 'm', 'p'], rfl, by decide, by decide⟩
      · exact ⟨['a', 'p', 'o', 's'], rfl, by decide, by decide⟩
      · exact ⟨['l', 't'], rfl, by decide, by decide⟩
      · exact ⟨['g', 't'], rfl, by decide, by decide⟩
      · exact ⟨['#', 'x', '2', '7'], rfl, by decide, by decide⟩
    obtain ⟨mid, hkdata, hmid, hmidc⟩ := hshape
    have hlook2 : entLookup (String.mk ('&' :: (mid ++ [';']))) = some ch := by
      rw [← hkdata]
      exact hlook
    apply String.ext
    simp only [decodeHTMLEntities, String.data_append, String.singleton_eq]
    rw [hkdata]
    have hstep := decodeFuel_entity_step
      (a.data ++ ('&' :: (mid ++ [';'])) ++ rest.data).length
      a.data mid rest.data ch le_rfl hmid hmidc hlook2 hfree
    rw [hstep]
    simp [List.append_assoc]

/-- Witness for C8: the entity `&lt;` occurring inside a larger string is
replaced in place, and a string whose only `&...;` sequence is
unrecognized passes through unchanged. -/
theorem decodeHTMLEntities_spec_witness :
    decodeHTMLEntities "a&lt;b" = "a<b" ∧
    decodeHTMLEntities "x &bad; y" = "x &bad; y" := by
  constructor
  · have h1 := decodeHTMLEntities_spec.2.2 "a" "&lt;" "b" '<'
      (by decide) (by decide) (by decide)
    have h2 := decodeHTMLEntities_spec.2.1 "b" (by decide)
    rw [h2] at h1
    exact h1
  · exact decodeHTMLEntities_spec.2.1 "x &bad; y" (by decide)
